import Mathlib

/-!
Verification of the framebuffer graphics library (`src/lib.rs`).

The Rust code is shallowly embedded: the `Display` struct carries the
framebuffer descriptor and the back buffer; the physical framebuffer
memory region pointed to by `fb.ptr` is modelled as the word list
`fb.mem`.  Pixel colors are `u32` values modelled as `Nat` (all
arithmetic performed on them stays far below `2^32`, so plain `Nat`
arithmetic agrees with `u32` arithmetic).  Coordinates are `usize`
(`Nat`) or `isize` (`Int`) exactly as in the source.
-/

namespace Spec2Proof

/-- Embeds `FramebufferInfo`: `ptr` is replaced by `mem`, the list of
pixel words of the physical framebuffer region it points to.
`pitch` is the scanline stride in pixel words. -/
structure FramebufferInfo where
  width : Nat
  height : Nat
  pitch : Nat
  mem : List Nat
deriving DecidableEq

/-- Embeds `Display`: descriptor plus back buffer (`Vec<u32>`). -/
structure Display where
  fb : FramebufferInfo
  back_buffer : List Nat
deriving DecidableEq

/-- Embeds `Display::init`: allocates a zeroed back buffer of
`width * height` words.  The boot-protocol acquisition of the
descriptor is outside the model, so the descriptor is a parameter. -/
def Display.init (fb : FramebufferInfo) : Display :=
  { fb := fb, back_buffer := List.replicate (fb.width * fb.height) 0 }

/-- Embeds `Display::set_pixel`: in-bounds guard, then write at the
row-major index `y * width + x`. -/
def Display.set_pixel (d : Display) (x y : Nat) (color : Nat) : Display :=
  if x < d.fb.width ∧ y < d.fb.height then
    { d with back_buffer := d.back_buffer.set (y * d.fb.width + x) color }
  else
    d

/-- Embeds `Display::get_pixel`: in-bounds guard, read at
`y * width + x`, else `0`.  The source indexes the vector directly;
under the length invariant the index is always valid, so `getD _ 0`
reads the same element. -/
def Display.get_pixel (d : Display) (x y : Nat) : Nat :=
  if x < d.fb.width ∧ y < d.fb.height then
    d.back_buffer.getD (y * d.fb.width + x) 0
  else
    0

/-- Embeds `Display::swap_buffers`: `copy_nonoverlapping` of
`back_buffer.len()` words from the back buffer to the start of the
physical region — a single contiguous bulk copy. -/
def Display.swap_buffers (d : Display) : Display :=
  { d with fb := { d.fb with
      mem := d.back_buffer ++ d.fb.mem.drop d.back_buffer.length } }

/-- Embeds `Display::clear`: `fill(color)` sets every element. -/
def Display.clear (d : Display) (color : Nat) : Display :=
  { d with back_buffer := List.replicate d.back_buffer.length color }

/-- Embeds `rgb`. -/
def rgb (r g b : Nat) : Nat :=
  ((r % 256) <<< 16) ||| ((g % 256) <<< 8) ||| (b % 256)

/-- Embeds `draw_pixel` (singleton access replaced by explicit state). -/
def draw_pixel (d : Display) (x y : Nat) (color : Nat) : Display :=
  d.set_pixel x y color

/-- Embeds `clear_screen`. -/
def clear_screen (d : Display) (color : Nat) : Display :=
  d.clear color

/- ### Generic helpers about indexing -/

theorem index_lt {w h x y : Nat} (hx : x < w) (hy : y < h) :
    y * w + x < w * h := by
  have h1 : (y + 1) * w ≤ h * w := Nat.mul_le_mul_right w (Nat.succ_le_of_lt hy)
  calc y * w + x < y * w + w := by omega
    _ = (y + 1) * w := by ring
    _ ≤ h * w := h1
    _ = w * h := Nat.mul_comm h w

theorem index_inj {w px py qx qy : Nat} (hpx : px < w) (hqx : qx < w)
    (h : py * w + px = qy * w + qx) : px = qx ∧ py = qy := by
  have hw : 0 < w := Nat.lt_of_le_of_lt (Nat.zero_le _) hpx
  have h1 : (py * w + px) % w = px := by
    rw [Nat.mul_comm, Nat.mul_add_mod]
    exact Nat.mod_eq_of_lt hpx
  have h2 : (qy * w + qx) % w = qx := by
    rw [Nat.mul_comm, Nat.mul_add_mod]
    exact Nat.mod_eq_of_lt hqx
  have hx : px = qx := by rw [← h1, ← h2, h]
  refine ⟨hx, ?_⟩
  have h3 : py * w = qy * w := by omega
  exact Nat.eq_of_mul_eq_mul_right hw h3

theorem getD_set (l : List Nat) (i j a : Nat) :
    (l.set i a).getD j 0 = if i = j ∧ j < l.length then a else l.getD j 0 := by
  simp only [List.getD_eq_getElem?_getD, List.getElem?_set]
  rcases eq_or_ne i j with rfl | hne
  · by_cases hj : i < l.length
    · simp [hj]
    · simp [hj, List.getElem?_eq_none (by omega : l.length ≤ i)]
  · have : ¬ (i = j ∧ j < l.length) := fun h => hne h.1
    simp [hne, this]

theorem get_pixel_def (d : Display) (x y : Nat) :
    d.get_pixel x y =
      if x < d.fb.width ∧ y < d.fb.height then
        d.back_buffer.getD (y * d.fb.width + x) 0
      else 0 := rfl

/-- Reading after a write: the written pixel if the write was in bounds
and the coordinates match, otherwise the old value. -/
theorem get_pixel_set_pixel (d : Display) (px py c qx qy : Nat)
    (hlen : d.back_buffer.length = d.fb.width * d.fb.height) :
    (d.set_pixel px py c).get_pixel qx qy =
      if qx = px ∧ qy = py ∧ px < d.fb.width ∧ py < d.fb.height then c
      else d.get_pixel qx qy := by
  by_cases hp : px < d.fb.width ∧ py < d.fb.height
  · have h1 : d.set_pixel px py c =
        ⟨d.fb, d.back_buffer.set (py * d.fb.width + px) c⟩ := by
      rw [Display.set_pixel, if_pos hp]
    rw [h1]
    have h2 : (⟨d.fb, d.back_buffer.set (py * d.fb.width + px) c⟩ : Display).get_pixel qx qy =
        if qx < d.fb.width ∧ qy < d.fb.height then
          (d.back_buffer.set (py * d.fb.width + px) c).getD (qy * d.fb.width + qx) 0
        else 0 := rfl
    rw [h2, get_pixel_def]
    by_cases hq : qx < d.fb.width ∧ qy < d.fb.height
    · rw [if_pos hq, if_pos hq, getD_set, hlen]
      have hiff : (py * d.fb.width + px = qy * d.fb.width + qx ∧
          qy * d.fb.width + qx < d.fb.width * d.fb.height) ↔
          (qx = px ∧ qy = py ∧ px < d.fb.width ∧ py < d.fb.height) := by
        constructor
        · rintro ⟨hidx, _⟩
          obtain ⟨hx, hy⟩ := index_inj hp.1 hq.1 hidx
          exact ⟨hx.symm, hy.symm, hp⟩
        · rintro ⟨hx, hy, _⟩
          subst hx; subst hy
          exact ⟨rfl, index_lt hq.1 hq.2⟩
      rw [if_congr hiff rfl rfl]
    · have hfalse : ¬ (qx = px ∧ qy = py ∧ px < d.fb.width ∧ py < d.fb.height) := by
        intro ⟨hx, hy, h3, h4⟩; exact hq ⟨hx ▸ h3, hy ▸ h4⟩
      rw [if_neg hq, if_neg hq, if_neg hfalse]
  · have h1 : d.set_pixel px py c = d := by
      rw [Display.set_pixel, if_neg hp]
    have hfalse : ¬ (qx = px ∧ qy = py ∧ px < d.fb.width ∧ py < d.fb.height) := by
      intro ⟨_, _, h3, h4⟩; exact hp ⟨h3, h4⟩
    rw [h1, if_neg hfalse]

theorem set_pixel_fb (d : Display) (x y c : Nat) :
    (d.set_pixel x y c).fb = d.fb := by
  unfold Display.set_pixel; split <;> rfl

theorem set_pixel_length (d : Display) (x y c : Nat) :
    (d.set_pixel x y c).back_buffer.length = d.back_buffer.length := by
  unfold Display.set_pixel; split <;> simp

/- ### Concrete test canvases -/

/-- A 4×4 canvas with zeroed back buffer, stride equal to width. -/
def dtest : Display :=
  { fb := { width := 4, height := 4, pitch := 4, mem := List.replicate 16 0 },
    back_buffer := List.replicate 16 0 }

/-- A 1×2 canvas whose physical stride (2) exceeds its width (1);
back buffer rows are `[1]` and `[2]`. -/
def dstride : Display :=
  { fb := { width := 1, height := 2, pitch := 2, mem := [0, 0, 0, 0] },
    back_buffer := [1, 2] }

/- ### C2 -/

/-- Claim C2: for every in-bounds coordinate pair `(x, y)` and every
color `c`, `set_pixel x y c` followed by `get_pixel x y` returns
exactly `c` (under the canvas length invariant). -/
theorem C2_set_then_get (d : Display) (x y c : Nat)
    (hlen : d.back_buffer.length = d.fb.width * d.fb.height)
    (hx : x < d.fb.width) (hy : y < d.fb.height) :
    (d.set_pixel x y c).get_pixel x y = c := by
  rw [get_pixel_set_pixel d x y c x y hlen]
  simp [hx, hy]

/-- Witness for C2 on the concrete 4×4 canvas. -/
theorem C2_set_then_get_witness : (dtest.set_pixel 1 2 9).get_pixel 1 2 = 9 :=
  C2_set_then_get dtest 1 2 9 (by decide) (by decide) (by decide)

/- ### C3 -/

/-- Claim C3: for every out-of-bounds coordinate pair `(x, y)` (that
is, `x ≥ width` or `y ≥ height`) and every color, `set_pixel` leaves
the whole canvas state unchanged and `get_pixel` returns `0`. -/
theorem C3_out_of_bounds (d : Display) (x y c : Nat)
    (hout : d.fb.width ≤ x ∨ d.fb.height ≤ y) :
    d.set_pixel x y c = d ∧ d.get_pixel x y = 0 := by
  have hnot : ¬ (x < d.fb.width ∧ y < d.fb.height) := by omega
  constructor
  · unfold Display.set_pixel; simp [hnot]
  · unfold Display.get_pixel; simp [hnot]

/-- Witness for C3 at `x = 5` on the 4×4 canvas. -/
theorem C3_out_of_bounds_witness :
    dtest.set_pixel 5 0 3 = dtest ∧ dtest.get_pixel 5 0 = 0 :=
  C3_out_of_bounds dtest 5 0 3 (Or.inl (by decide))

/- ### C1 -/

/-- Claim C1 (code bug, evaluated at the failing input): on the 1×2
canvas with stride 2, `swap_buffers` bulk-copies the back buffer, so
physical word `1*stride + 0 = 2` still holds `0`, while the back
buffer's row-1 pixel `back_buffer[1*width + 0]` is `2`: the claimed
per-row reproduction at offset `y*stride` fails when
`stride ≠ width`. -/
theorem C1_swap_buffers_stride_bug :
    dstride.swap_buffers.fb.mem = [1, 2, 0, 0] ∧
    dstride.swap_buffers.fb.mem.getD (1 * dstride.fb.pitch + 0) 0 = 0 ∧
    dstride.back_buffer.getD (1 * dstride.fb.width + 0) 0 = 2 ∧
    (0 : Nat) ≠ 2 := by
  refine ⟨?_, ?_, ?_, by decide⟩ <;> decide

/- ### Folding a list of single-color pixel writes

Each drawing primitive of the source is a nest of `for` loops around
`set_pixel` calls with one fixed color; such a nest is embedded as a
fold of `set_pixel` over the list of coordinates the loops produce, in
loop order. -/

def writeAll (d : Display) (ps : List (Nat × Nat)) (color : Nat) : Display :=
  ps.foldl (fun d p => d.set_pixel p.1 p.2 color) d

theorem writeAll_fb (d : Display) (ps : List (Nat × Nat)) (color : Nat) :
    (writeAll d ps color).fb = d.fb := by
  induction ps generalizing d with
  | nil => rfl
  | cons p ps ih => rw [writeAll, List.foldl_cons, ← writeAll, ih, set_pixel_fb]

theorem writeAll_length (d : Display) (ps : List (Nat × Nat)) (color : Nat) :
    (writeAll d ps color).back_buffer.length = d.back_buffer.length := by
  induction ps generalizing d with
  | nil => rfl
  | cons p ps ih =>
    rw [writeAll, List.foldl_cons, ← writeAll, ih, set_pixel_length]

/-- The pixel value after a batch of same-color writes: the color if
the coordinate occurs in the list (and is on the canvas), otherwise
the old value. -/
theorem get_pixel_writeAll (d : Display) (ps : List (Nat × Nat)) (color qx qy : Nat)
    (hlen : d.back_buffer.length = d.fb.width * d.fb.height) :
    (writeAll d ps color).get_pixel qx qy =
      if (qx, qy) ∈ ps ∧ qx < d.fb.width ∧ qy < d.fb.height then color
      else d.get_pixel qx qy := by
  induction ps generalizing d with
  | nil => simp [writeAll]
  | cons p ps ih =>
    rw [writeAll, List.foldl_cons, ← writeAll]
    have hlen' : (d.set_pixel p.1 p.2 color).back_buffer.length =
        (d.set_pixel p.1 p.2 color).fb.width * (d.set_pixel p.1 p.2 color).fb.height := by
      rw [set_pixel_length, set_pixel_fb, hlen]
    rw [ih _ hlen', set_pixel_fb, get_pixel_set_pixel d p.1 p.2 color qx qy hlen]
    by_cases hm : (qx, qy) ∈ ps ∧ qx < d.fb.width ∧ qy < d.fb.height
    · rw [if_pos hm, if_pos ⟨List.mem_cons_of_mem p hm.1, hm.2⟩]
    · rw [if_neg hm]
      by_cases he : qx = p.1 ∧ qy = p.2 ∧ p.1 < d.fb.width ∧ p.2 < d.fb.height
      · rw [if_pos he]
        have : (qx, qy) ∈ p :: ps := by
          have : (qx, qy) = p := Prod.ext he.1 he.2.1
          exact this ▸ List.mem_cons_self _ _
        rw [if_pos ⟨this, he.1 ▸ he.2.2.1, he.2.1 ▸ he.2.2.2⟩]
      · rw [if_neg he]
        by_cases hc : (qx, qy) ∈ p :: ps ∧ qx < d.fb.width ∧ qy < d.fb.height
        · exfalso
          rcases List.mem_cons.mp hc.1 with h1 | h1
          · have h2 : qx = p.1 ∧ qy = p.2 := Prod.mk.injEq .. ▸ h1
            exact he ⟨h2.1, h2.2, h2.1 ▸ hc.2.1, h2.2 ▸ hc.2.2⟩
          · exact hm ⟨h1, hc.2⟩
        · rw [if_neg hc]

/- ### draw_rect and draw_rect_outline -/

/-- Embeds `draw_rect`: the nested `for` loops as a write list. -/
def draw_rect (d : Display) (x y width height : Nat) (color : Nat) : Display :=
  writeAll d
    ((List.range height).flatMap fun dy =>
      (List.range width).map fun dx => (x + dx, y + dy))
    color

/-- The write list of `draw_rect_outline`: first loop nest plots the
top and bottom horizontal edges (the bottom one under the source's
`y + height > t` guard), the second nest the left and right vertical
edges (right one under `x + width > t`). -/
def rectOutlineWrites (x y width height thickness : Nat) : List (Nat × Nat) :=
  ((List.range thickness).flatMap fun t =>
    (List.range width).flatMap fun dx =>
      (x + dx, y + t) ::
        (if y + height > t then [(x + dx, y + height - 1 - t)] else []))
  ++
  ((List.range thickness).flatMap fun t =>
    (List.range height).flatMap fun dy =>
      (x + t, y + dy) ::
        (if x + width > t then [(x + width - 1 - t, y + dy)] else []))

/-- Embeds `draw_rect_outline`. -/
def draw_rect_outline (d : Display) (x y width height : Nat) (color : Nat)
    (thickness : Nat) : Display :=
  writeAll d (rectOutlineWrites x y width height thickness) color

/-- Membership in the outline write list, for `thickness ≤ width` and
`thickness ≤ height`: exactly the rectangle pixels within distance
`thickness - 1` of the border (`min` of the four edge distances). -/
theorem mem_rectOutlineWrites {x y width height thickness qx qy : Nat}
    (hw : thickness ≤ width) (hh : thickness ≤ height) :
    ((qx, qy) ∈ rectOutlineWrites x y width height thickness) ↔
      (x ≤ qx ∧ qx < x + width ∧ y ≤ qy ∧ qy < y + height ∧
        (qx - x < thickness ∨ x + width - 1 - qx < thickness ∨
         qy - y < thickness ∨ y + height - 1 - qy < thickness)) := by
  rw [rectOutlineWrites]
  simp only [List.mem_append, List.mem_flatMap, List.mem_range, List.mem_cons,
    List.mem_ite_nil_right, List.mem_singleton, List.not_mem_nil, or_false,
    Prod.mk.injEq]
  constructor
  · rintro (⟨t, ht, dx, hdx, (⟨e1, e2⟩ | ⟨hg, e1, e2⟩)⟩ |
        ⟨t, ht, dy, hdy, (⟨e1, e2⟩ | ⟨hg, e1, e2⟩)⟩) <;>
      refine ⟨by omega, by omega, by omega, by omega, by omega⟩
  · rintro ⟨h1, h2, h3, h4, hring⟩
    rcases hring with h | h | h | h
    · -- left vertical band: distance qx - x < thickness
      right
      exact ⟨qx - x, by omega, qy - y, by omega, Or.inl ⟨by omega, by omega⟩⟩
    · -- right vertical band
      right
      exact ⟨x + width - 1 - qx, by omega, qy - y, by omega,
        Or.inr ⟨by omega, by omega, by omega⟩⟩
    · -- top horizontal band
      left
      exact ⟨qy - y, by omega, qx - x, by omega, Or.inl ⟨by omega, by omega⟩⟩
    · -- bottom horizontal band
      left
      exact ⟨y + height - 1 - qy, by omega, qx - x, by omega,
        Or.inr ⟨by omega, by omega, by omega⟩⟩

/-- Claim C5, amended to `thickness ≤ min width height`: on every
in-bounds query pixel, `draw_rect_outline` yields the ring color
exactly on the rectangle pixels whose minimum distance to one of the
four edges is below `thickness`, and leaves every other pixel
unchanged. -/
theorem C5_rect_outline_ring (d : Display) (x y width height color thickness qx qy : Nat)
    (hlen : d.back_buffer.length = d.fb.width * d.fb.height)
    (hw : thickness ≤ width) (hh : thickness ≤ height)
    (hqx : qx < d.fb.width) (hqy : qy < d.fb.height) :
    (draw_rect_outline d x y width height color thickness).get_pixel qx qy =
      if x ≤ qx ∧ qx < x + width ∧ y ≤ qy ∧ qy < y + height ∧
          (qx - x < thickness ∨ x + width - 1 - qx < thickness ∨
           qy - y < thickness ∨ y + height - 1 - qy < thickness) then color
      else d.get_pixel qx qy := by
  rw [draw_rect_outline, get_pixel_writeAll d _ color qx qy hlen]
  by_cases hc : x ≤ qx ∧ qx < x + width ∧ y ≤ qy ∧ qy < y + height ∧
      (qx - x < thickness ∨ x + width - 1 - qx < thickness ∨
       qy - y < thickness ∨ y + height - 1 - qy < thickness)
  · rw [if_pos hc, if_pos ⟨(mem_rectOutlineWrites hw hh).mpr hc, hqx, hqy⟩]
  · rw [if_neg hc, if_neg (fun hmem => hc ((mem_rectOutlineWrites hw hh).mp hmem.1))]

/-- Counterexample to claim C5 as stated: with `thickness = 2` on a
1×1 rectangle at the origin of the 4×4 canvas, the claim demands that
every pixel outside the rectangle `[0,1)×[0,1)` keep its old value,
but the code paints pixel `(0,1)`. -/
theorem C5_counterexample :
    ¬ (∀ qx qy : Nat, qx < 4 → qy < 4 → ¬ (qx < 1 ∧ qy < 1) →
        (draw_rect_outline dtest 0 0 1 1 7 2).get_pixel qx qy =
          dtest.get_pixel qx qy) := by
  intro h
  have h1 := h 0 1 (by decide) (by decide) (by decide)
  revert h1
  decide

/-- Witness for the amended C5 on the 4×4 canvas: a 3×3 outline of
thickness 1 paints the border pixel `(2, 0)` and spares the interior
pixel `(1, 1)`. -/
theorem C5_rect_outline_ring_witness :
    (draw_rect_outline dtest 0 0 3 3 7 1).get_pixel 2 0 = 7 ∧
    (draw_rect_outline dtest 0 0 3 3 7 1).get_pixel 1 1 = 0 := by
  constructor
  · rw [C5_rect_outline_ring dtest 0 0 3 3 7 1 2 0 (by decide) (by decide)
      (by decide) (by decide) (by decide)]
    decide
  · rw [C5_rect_outline_ring dtest 0 0 3 3 7 1 1 1 (by decide) (by decide)
      (by decide) (by decide) (by decide)]
    decide

/- ### blend_colors -/

/-- Embeds `blend_colors`.  `alpha` is a `u8` (callers pass values
`≤ 255`); all intermediate products stay below `2^32`, so `Nat`
arithmetic coincides with the source's `u32` arithmetic. -/
def blend_colors (bg fg : Nat) (alpha : Nat) : Nat :=
  let inv_alpha := 255 - alpha
  let bg_r := (bg >>> 16) &&& 0xFF
  let bg_g := (bg >>> 8) &&& 0xFF
  let bg_b := bg &&& 0xFF
  let fg_r := (fg >>> 16) &&& 0xFF
  let fg_g := (fg >>> 8) &&& 0xFF
  let fg_b := fg &&& 0xFF
  let r := (bg_r * inv_alpha + fg_r * alpha) / 255
  let g := (bg_g * inv_alpha + fg_g * alpha) / 255
  let b := (bg_b * inv_alpha + fg_b * alpha) / 255
  (r <<< 16) ||| (g <<< 8) ||| b

theorem land_255 (n : Nat) : n &&& 255 = n % 256 := by
  have h := Nat.and_pow_two_sub_one_eq_mod n 8
  norm_num at h
  exact h

theorem pack_or_eq_add {r g b : Nat} (hg : g < 256) (hb : b < 256) :
    (r <<< 16) ||| (g <<< 8) ||| b = r * 65536 + g * 256 + b := by
  have e8 : (2:Nat) ^ 8 = 256 := by norm_num
  have e16 : (2:Nat) ^ 16 = 65536 := by norm_num
  have h1 : g <<< 8 ||| b = g * 256 + b := by
    have hor := Nat.mul_add_lt_is_or (lt_of_lt_of_eq hb e8.symm) g
    rw [e8] at hor
    rw [Nat.shiftLeft_eq, e8, Nat.mul_comm g 256, ← hor, Nat.mul_comm 256 g]
  rw [Nat.lor_assoc, h1]
  have hgb : g * 256 + b < 2 ^ 16 := by rw [e16]; omega
  have hor := Nat.mul_add_lt_is_or hgb r
  rw [e16] at hor
  rw [Nat.shiftLeft_eq, e16, Nat.mul_comm r 65536, ← hor, Nat.mul_comm 65536 r]
  omega

/-- Unpacking the three 8-bit channels of a 24-bit word and repacking
them reproduces the word. -/
theorem repack_channels {n : Nat} (h : n < 16777216) :
    (((n >>> 16) &&& 255) <<< 16) ||| (((n >>> 8) &&& 255) <<< 8) ||| (n &&& 255)
      = n := by
  have hg : (n >>> 8) &&& 255 < 256 := by
    rw [land_255]; exact Nat.mod_lt _ (by norm_num)
  have hb : n &&& 255 < 256 := by
    rw [land_255]; exact Nat.mod_lt _ (by norm_num)
  rw [pack_or_eq_add hg hb]
  simp only [land_255, Nat.shiftRight_eq_div_pow]
  have e8 : (2:Nat) ^ 8 = 256 := by norm_num
  have e16 : (2:Nat) ^ 16 = 65536 := by norm_num
  rw [e8, e16]
  omega

/-- Claim C6: for 24-bit packed colors, `blend_colors bg fg 0 = bg`
exactly, and `blend_colors bg fg 255 = fg` — in fact exactly, which in
particular is within the claimed truncation slack of 1 per channel. -/
theorem C6_blend_extremes (bg fg : Nat) (hbg : bg < 16777216) (hfg : fg < 16777216) :
    blend_colors bg fg 0 = bg ∧ blend_colors bg fg 255 = fg := by
  constructor
  · show ((((bg >>> 16) &&& 255) * (255 - 0) + ((fg >>> 16) &&& 255) * 0) / 255) <<< 16 |||
      ((((bg >>> 8) &&& 255) * (255 - 0) + ((fg >>> 8) &&& 255) * 0) / 255) <<< 8 |||
      (((bg &&& 255) * (255 - 0) + (fg &&& 255) * 0) / 255) = bg
    have e : ∀ a b : Nat, (a * (255 - 0) + b * 0) / 255 = a := by
      intro a b
      simp [Nat.mul_div_cancel]
    rw [e, e, e]
    exact repack_channels hbg
  · show ((((bg >>> 16) &&& 255) * (255 - 255) + ((fg >>> 16) &&& 255) * 255) / 255) <<< 16 |||
      ((((bg >>> 8) &&& 255) * (255 - 255) + ((fg >>> 8) &&& 255) * 255) / 255) <<< 8 |||
      (((bg &&& 255) * (255 - 255) + (fg &&& 255) * 255) / 255) = fg
    have e : ∀ a b : Nat, (a * (255 - 255) + b * 255) / 255 = b := by
      intro a b
      simp [Nat.mul_div_cancel]
    rw [e, e, e]
    exact repack_channels hfg

/-- Witness for C6 on concrete colors. -/
theorem C6_blend_extremes_witness :
    blend_colors 0xFF8000 0x123456 0 = 0xFF8000 ∧
    blend_colors 0xFF8000 0x123456 255 = 0x123456 :=
  C6_blend_extremes 0xFF8000 0x123456 (by decide) (by decide)

/- ### fill_circle -/

/-- The list of integers of a Rust inclusive range `a..=b`. -/
def intRange (a b : Int) : List Int :=
  (List.range (b + 1 - a).toNat).map fun (i : Nat) => a + (i : Int)

theorem mem_intRange {a b z : Int} : z ∈ intRange a b ↔ a ≤ z ∧ z ≤ b := by
  simp only [intRange, List.mem_map, List.mem_range]
  constructor
  · rintro ⟨i, hi, rfl⟩
    omega
  · rintro ⟨h1, h2⟩
    exact ⟨(z - a).toNat, by omega, by omega⟩

/-- The write list of `fill_circle`: scan of the bounding box
`-radius..=radius` squared, disk-membership test, then the
non-negativity guards and `as usize` casts. -/
def fillCircleWrites (cx cy radius : Int) : List (Nat × Nat) :=
  (intRange (-radius) radius).flatMap fun y =>
    (intRange (-radius) radius).flatMap fun x =>
      if x * x + y * y ≤ radius * radius then
        if 0 ≤ cx + x ∧ 0 ≤ cy + y then [((cx + x).toNat, (cy + y).toNat)]
        else []
      else []

/-- Embeds `fill_circle`. -/
def fill_circle (d : Display) (cx cy radius : Int) (color : Nat) : Display :=
  writeAll d (fillCircleWrites cx cy radius) color

theorem le_of_mul_self_le_mul_self {a r : Int} (hr : 0 ≤ r) (h : a * a ≤ r * r) :
    -r ≤ a ∧ a ≤ r := by
  constructor
  · by_contra hc
    push_neg at hc
    nlinarith
  · by_contra hc
    push_neg at hc
    nlinarith

/-- For `radius ≥ 0`, a pixel (with `Nat` coordinates, hence already
non-negative) occurs in the fill-circle write list exactly when its
squared distance to the center is at most `radius²`. -/
theorem mem_fillCircleWrites {cx cy radius : Int} {qx qy : Nat} (hr : 0 ≤ radius) :
    ((qx, qy) ∈ fillCircleWrites cx cy radius) ↔
      ((qx:Int) - cx) * ((qx:Int) - cx) + ((qy:Int) - cy) * ((qy:Int) - cy)
        ≤ radius * radius := by
  simp only [fillCircleWrites, List.mem_flatMap, mem_intRange,
    List.mem_ite_nil_right, List.mem_singleton, Prod.mk.injEq]
  constructor
  · rintro ⟨y, ⟨hy1, hy2⟩, x, ⟨hx1, hx2⟩, hle, ⟨hnn1, hnn2⟩, e1, e2⟩
    have ex : (qx:Int) - cx = x := by omega
    have ey : (qy:Int) - cy = y := by omega
    rw [ex, ey]
    exact hle
  · intro hdist
    have hdx2 : ((qx:Int) - cx) * ((qx:Int) - cx) ≤ radius * radius := by
      nlinarith [mul_self_nonneg ((qy:Int) - cy)]
    have hdy2 : ((qy:Int) - cy) * ((qy:Int) - cy) ≤ radius * radius := by
      nlinarith [mul_self_nonneg ((qx:Int) - cx)]
    obtain ⟨hxl, hxr⟩ := le_of_mul_self_le_mul_self hr hdx2
    obtain ⟨hyl, hyr⟩ := le_of_mul_self_le_mul_self hr hdy2
    refine ⟨(qy:Int) - cy, ⟨by omega, by omega⟩, (qx:Int) - cx, ⟨by omega, by omega⟩,
      hdist, ⟨by omega, by omega⟩, by omega, by omega⟩

/-- Claim C7, amended to `radius ≥ 0`: `fill_circle` paints exactly
the in-bounds pixels at squared distance at most `radius²` from the
center and leaves every other pixel unchanged. -/
theorem C7_fill_circle (d : Display) (cx cy radius : Int) (color qx qy : Nat)
    (hlen : d.back_buffer.length = d.fb.width * d.fb.height)
    (hr : 0 ≤ radius) (hqx : qx < d.fb.width) (hqy : qy < d.fb.height) :
    (fill_circle d cx cy radius color).get_pixel qx qy =
      if ((qx:Int) - cx) * ((qx:Int) - cx) + ((qy:Int) - cy) * ((qy:Int) - cy)
          ≤ radius * radius
      then color else d.get_pixel qx qy := by
  rw [fill_circle, get_pixel_writeAll d _ color qx qy hlen]
  by_cases hc : ((qx:Int) - cx) * ((qx:Int) - cx) + ((qy:Int) - cy) * ((qy:Int) - cy)
      ≤ radius * radius
  · rw [if_pos hc, if_pos ⟨(mem_fillCircleWrites hr).mpr hc, hqx, hqy⟩]
  · rw [if_neg hc, if_neg (fun h => hc ((mem_fillCircleWrites hr).mp h.1))]

/-- Counterexample to claim C7 as stated: with the negative radius
`-1`, the pair `dx = dy = 0` satisfies `dx*dx + dy*dy ≤ r*r` and both
resulting coordinates are non-negative, so the claim demands that the
center pixel be painted; but the scan loop `-radius..=radius` is the
empty range `1..=-1`, so the code paints nothing. -/
theorem C7_counterexample :
    ((0:Int) * 0 + 0 * 0 ≤ (-1:Int) * (-1)) ∧
    (fill_circle dtest 0 0 (-1) 7).get_pixel 0 0 ≠ 7 := by
  constructor
  · decide
  · decide

/-- Witness for the amended C7: radius-1 disk at `(2,2)` on the 4×4
canvas paints `(2,3)` and spares `(0,0)`. -/
theorem C7_fill_circle_witness :
    (fill_circle dtest 2 2 1 7).get_pixel 2 3 = 7 ∧
    (fill_circle dtest 2 2 1 7).get_pixel 0 0 = 0 := by
  constructor
  · rw [C7_fill_circle dtest 2 2 1 7 2 3 (by decide) (by decide) (by decide)
      (by decide)]
    decide
  · rw [C7_fill_circle dtest 2 2 1 7 0 0 (by decide) (by decide) (by decide)
      (by decide)]
    decide

/- ### draw_line (Bresenham)

The source's `loop` is embedded as a fueled recursion returning
`Option Display`: `none` means the fuel ran out before the loop's
`break` (`x == x1 && y == y1`) was reached.  `draw_line` runs the loop
with fuel `|x1-x0| + |y1-y0| + 1`; the termination theorem shows this
fuel always suffices. -/

def drawLineGo (x1 y1 dx dy sx sy : Int) (color : Nat) :
    Nat → Int → Int → Int → Display → Option Display
  | 0, _, _, _, _ => none
  | fuel + 1, x, y, err, d =>
    if x = x1 ∧ y = y1 then
      some (if 0 ≤ x ∧ 0 ≤ y then d.set_pixel x.toNat y.toNat color else d)
    else
      drawLineGo x1 y1 dx dy sx sy color fuel
        (if 2 * err ≥ dy then x + sx else x)
        (if 2 * err ≤ dx then y + sy else y)
        ((if 2 * err ≥ dy then err + dy else err) + (if 2 * err ≤ dx then dx else 0))
        (if 0 ≤ x ∧ 0 ≤ y then d.set_pixel x.toNat y.toNat color else d)

theorem drawLineGo_succ (x1 y1 dx dy sx sy : Int) (color : Nat) (fuel : Nat)
    (x y err : Int) (d : Display) :
    drawLineGo x1 y1 dx dy sx sy color (fuel + 1) x y err d =
      if x = x1 ∧ y = y1 then
        some (if 0 ≤ x ∧ 0 ≤ y then d.set_pixel x.toNat y.toNat color else d)
      else
        drawLineGo x1 y1 dx dy sx sy color fuel
          (if 2 * err ≥ dy then x + sx else x)
          (if 2 * err ≤ dx then y + sy else y)
          ((if 2 * err ≥ dy then err + dy else err) + (if 2 * err ≤ dx then dx else 0))
          (if 0 ≤ x ∧ 0 ≤ y then d.set_pixel x.toNat y.toNat color else d) := rfl

/-- The loop state of the source's `draw_line` before entering the
loop, with the fuel `|x1-x0| + |y1-y0| + 1`. -/
def drawLineLoopResult (d : Display) (x0 y0 x1 y1 : Int) (color : Nat) :
    Option Display :=
  drawLineGo x1 y1 ((x1 - x0).natAbs : Int) (-((y1 - y0).natAbs : Int))
    (if x0 < x1 then 1 else -1) (if y0 < y1 then 1 else -1) color
    ((x1 - x0).natAbs + (y1 - y0).natAbs + 1) x0 y0
    (((x1 - x0).natAbs : Int) + -((y1 - y0).natAbs : Int)) d

/-- Embeds `draw_line`. -/
def draw_line (d : Display) (x0 y0 x1 y1 : Int) (color : Nat) : Display :=
  (drawLineLoopResult d x0 y0 x1 y1 color).getD d

/-- Bresenham loop invariant: after `a` x-steps and `b` y-steps the
position is `(x0 + sx*a, y0 + sy*b)` and the error term is
`dx + dy + b*dx + a*dy`; with `a ≤ |Δx|`, `b ≤ |Δy|` and fuel
exceeding the remaining steps the loop reaches its break. -/
theorem drawLineGo_some_aux (x0 y0 x1 y1 : Int) (color : Nat) :
    ∀ (fuel a b : Nat) (x y err : Int) (d : Display),
      a ≤ (x1 - x0).natAbs → b ≤ (y1 - y0).natAbs →
      x = x0 + (if x0 < x1 then 1 else -1) * (a : Int) →
      y = y0 + (if y0 < y1 then 1 else -1) * (b : Int) →
      err = ((x1 - x0).natAbs : Int) - ((y1 - y0).natAbs : Int)
          + (b : Int) * ((x1 - x0).natAbs : Int)
          - (a : Int) * ((y1 - y0).natAbs : Int) →
      ((x1 - x0).natAbs - a) + ((y1 - y0).natAbs - b) < fuel →
      ∃ d', drawLineGo x1 y1 ((x1 - x0).natAbs : Int) (-((y1 - y0).natAbs : Int))
        (if x0 < x1 then 1 else -1) (if y0 < y1 then 1 else -1) color fuel
        x y err d = some d' := by
  intro fuel
  induction fuel with
  | zero =>
    intro a b x y err d ha hb hx hy herr hm
    exact absurd hm (by omega)
  | succ n ih =>
    intro a b x y err d ha hb hx hy herr hm
    rw [drawLineGo_succ]
    by_cases hdone : x = x1 ∧ y = y1
    · rw [if_pos hdone]
      exact ⟨_, rfl⟩
    · rw [if_neg hdone]
      have hxiff : x = x1 ↔ a = (x1 - x0).natAbs := by
        rcases lt_or_ge x0 x1 with h | h
        · rw [if_pos h] at hx; omega
        · rw [if_neg (not_lt.mpr h)] at hx; omega
      have hyiff : y = y1 ↔ b = (y1 - y0).natAbs := by
        rcases lt_or_ge y0 y1 with h | h
        · rw [if_pos h] at hy; omega
        · rw [if_neg (not_lt.mpr h)] at hy; omega
      have hXnn : (0 : Int) ≤ ((x1 - x0).natAbs : Int) := Int.natCast_nonneg _
      have hYnn : (0 : Int) ≤ ((y1 - y0).natAbs : Int) := Int.natCast_nonneg _
      -- a full x-band forbids a further x-step; a full y-band a y-step
      have fact1 : a = (x1 - x0).natAbs → b < (y1 - y0).natAbs →
          ¬ (2 * err ≥ -((y1 - y0).natAbs : Int)) := by
        intro hax hby hge
        rw [herr, hax] at hge
        have h1 : (0 : Int) ≤ ((x1 - x0).natAbs : Int) *
            (((y1 - y0).natAbs : Int) - 1 - (b : Int)) :=
          mul_nonneg hXnn (by omega)
        have h2 : (1 : Int) ≤ ((y1 - y0).natAbs : Int) := by omega
        nlinarith
      have fact2 : b = (y1 - y0).natAbs → a < (x1 - x0).natAbs →
          ¬ (2 * err ≤ ((x1 - x0).natAbs : Int)) := by
        intro hby hax hle
        rw [herr, hby] at hle
        have h1 : (0 : Int) ≤ ((y1 - y0).natAbs : Int) *
            (((x1 - x0).natAbs : Int) - 1 - (a : Int)) :=
          mul_nonneg hYnn (by omega)
        have h2 : (1 : Int) ≤ ((x1 - x0).natAbs : Int) := by omega
        nlinarith
      have hnab : ¬ (a = (x1 - x0).natAbs ∧ b = (y1 - y0).natAbs) := by
        intro hab
        exact hdone ⟨hxiff.mpr hab.1, hyiff.mpr hab.2⟩
      by_cases hcx : 2 * err ≥ -((y1 - y0).natAbs : Int)
      · have haX : a < (x1 - x0).natAbs := by
          rcases Nat.lt_or_ge a ((x1 - x0).natAbs) with h | h
          · exact h
          · exfalso
            have hax : a = (x1 - x0).natAbs := by omega
            have hby : b < (y1 - y0).natAbs := by
              rcases Nat.lt_or_ge b ((y1 - y0).natAbs) with h' | h'
              · exact h'
              · exact absurd ⟨hax, by omega⟩ hnab
            exact fact1 hax hby hcx
        by_cases hcy : 2 * err ≤ ((x1 - x0).natAbs : Int)
        · -- both coordinates step
          have hbY : b < (y1 - y0).natAbs := by
            rcases Nat.lt_or_ge b ((y1 - y0).natAbs) with h | h
            · exact h
            · exact absurd (fact2 (by omega) haX) (by simpa using hcy)
          simp only [if_pos hcx, if_pos hcy]
          exact ih (a + 1) (b + 1) _ _ _ _ (by omega) (by omega)
            (by rw [hx]; push_cast; ring) (by rw [hy]; push_cast; ring)
            (by rw [herr]; push_cast; ring) (by omega)
        · -- only x steps
          simp only [if_pos hcx, if_neg hcy]
          exact ih (a + 1) b _ _ _ _ (by omega) hb
            (by rw [hx]; push_cast; ring) hy
            (by rw [herr]; push_cast; ring) (by omega)
      · by_cases hcy : 2 * err ≤ ((x1 - x0).natAbs : Int)
        · -- only y steps
          have hbY : b < (y1 - y0).natAbs := by
            rcases Nat.lt_or_ge b ((y1 - y0).natAbs) with h | h
            · exact h
            · exfalso
              have hby : b = (y1 - y0).natAbs := by omega
              have hax : a < (x1 - x0).natAbs := by
                rcases Nat.lt_or_ge a ((x1 - x0).natAbs) with h' | h'
                · exact h'
                · exact absurd ⟨by omega, hby⟩ hnab
              exact fact2 hby hax hcy
          simp only [if_neg hcx, if_pos hcy]
          exact ih a (b + 1) _ _ _ _ ha (by omega)
            hx (by rw [hy]; push_cast; ring)
            (by rw [herr]; push_cast; ring) (by omega)
        · -- the two step conditions cannot both fail
          exfalso
          push_neg at hcx hcy
          linarith

/-- The Bresenham loop, run with fuel `|Δx| + |Δy| + 1`, always
reaches its break condition `x = x1 ∧ y = y1`. -/
theorem drawLineLoopResult_some (d : Display) (x0 y0 x1 y1 : Int) (color : Nat) :
    ∃ d', drawLineLoopResult d x0 y0 x1 y1 color = some d' := by
  have h := drawLineGo_some_aux x0 y0 x1 y1 color
    ((x1 - x0).natAbs + (y1 - y0).natAbs + 1) 0 0 x0 y0
    (((x1 - x0).natAbs : Int) + -((y1 - y0).natAbs : Int)) d
    (Nat.zero_le _) (Nat.zero_le _) (by push_cast; ring) (by push_cast; ring)
    (by push_cast; ring) (by omega)
  exact h

/-- Claim C9: for every pair of signed endpoints, the `draw_line`
loop (err = dx + dy, stepping by the Bresenham decision rule)
terminates: with fuel `|Δx| + |Δy| + 1` it reaches the break state
`x = x1 ∧ y = y1` and returns a display. -/
theorem C9_line_terminates (d : Display) (x0 y0 x1 y1 : Int) (color : Nat) :
    ∃ d', drawLineLoopResult d x0 y0 x1 y1 color = some d' :=
  drawLineLoopResult_some d x0 y0 x1 y1 color

theorem drawLineGo_fb_len (x1 y1 dx dy sx sy : Int) (color : Nat) :
    ∀ (fuel : Nat) (x y err : Int) (d d' : Display),
      drawLineGo x1 y1 dx dy sx sy color fuel x y err d = some d' →
      d'.fb = d.fb ∧ d'.back_buffer.length = d.back_buffer.length := by
  intro fuel
  induction fuel with
  | zero =>
    intro x y err d d' h
    exact absurd h (by rw [drawLineGo]; simp)
  | succ n ih =>
    intro x y err d d' h
    rw [drawLineGo_succ] at h
    by_cases hdone : x = x1 ∧ y = y1
    · rw [if_pos hdone] at h
      have h2 := Option.some.inj h
      subst h2
      split_ifs with hg
      · exact ⟨set_pixel_fb .., set_pixel_length ..⟩
      · exact ⟨rfl, rfl⟩
    · rw [if_neg hdone] at h
      obtain ⟨hfb, hl⟩ := ih _ _ _ _ _ h
      constructor
      · rw [hfb]
        split_ifs with hg
        · exact set_pixel_fb ..
        · rfl
      · rw [hl]
        split_ifs with hg
        · exact set_pixel_length ..
        · rfl

theorem get_pixel_set_pixel_preserve (d : Display) (px py c qx qy : Nat)
    (hlen : d.back_buffer.length = d.fb.width * d.fb.height)
    (h : d.get_pixel qx qy = c) :
    (d.set_pixel px py c).get_pixel qx qy = c := by
  rw [get_pixel_set_pixel d px py c qx qy hlen]
  split_ifs with h1
  · rfl
  · exact h

/-- Every plot of the loop writes `color`, so a pixel already holding
`color` still holds it when the loop finishes. -/
theorem drawLineGo_preserve (x1 y1 dx dy sx sy : Int) (color : Nat) :
    ∀ (fuel : Nat) (x y err : Int) (d d' : Display) (qx qy : Nat),
      d.back_buffer.length = d.fb.width * d.fb.height →
      drawLineGo x1 y1 dx dy sx sy color fuel x y err d = some d' →
      d.get_pixel qx qy = color →
      d'.get_pixel qx qy = color := by
  intro fuel
  induction fuel with
  | zero =>
    intro x y err d d' qx qy _ h _
    exact absurd h (by rw [drawLineGo]; simp)
  | succ n ih =>
    intro x y err d d' qx qy hlen h hold
    rw [drawLineGo_succ] at h
    have hplot : ∀ dd : Display,
        dd = (if 0 ≤ x ∧ 0 ≤ y then d.set_pixel x.toNat y.toNat color else d) →
        dd.get_pixel qx qy = color ∧
        dd.back_buffer.length = dd.fb.width * dd.fb.height := by
      intro dd hdd
      subst hdd
      split_ifs with hg
      · exact ⟨get_pixel_set_pixel_preserve d _ _ _ _ _ hlen hold,
          by rw [set_pixel_length, set_pixel_fb]; exact hlen⟩
      · exact ⟨hold, hlen⟩
    by_cases hdone : x = x1 ∧ y = y1
    · rw [if_pos hdone] at h
      have h2 := Option.some.inj h
      subst h2
      exact (hplot _ rfl).1
    · rw [if_neg hdone] at h
      obtain ⟨hc, hl⟩ := hplot _ rfl
      exact ih _ _ _ _ _ _ _ hl h hc

/-- The loop's final plot (just before the break) is the endpoint
`(x1, y1)`, so the finished display holds `color` there. -/
theorem drawLineGo_last (x1 y1 dx dy sx sy : Int) (color : Nat)
    (hx1 : 0 ≤ x1) (hy1 : 0 ≤ y1) :
    ∀ (fuel : Nat) (x y err : Int) (d d' : Display),
      d.back_buffer.length = d.fb.width * d.fb.height →
      x1.toNat < d.fb.width → y1.toNat < d.fb.height →
      drawLineGo x1 y1 dx dy sx sy color fuel x y err d = some d' →
      d'.get_pixel x1.toNat y1.toNat = color := by
  intro fuel
  induction fuel with
  | zero =>
    intro x y err d d' _ _ _ h
    exact absurd h (by rw [drawLineGo]; simp)
  | succ n ih =>
    intro x y err d d' hlen hbx hby h
    rw [drawLineGo_succ] at h
    by_cases hdone : x = x1 ∧ y = y1
    · rw [if_pos hdone] at h
      obtain ⟨rfl, rfl⟩ := hdone
      rw [if_pos ⟨hx1, hy1⟩] at h
      have h2 := Option.some.inj h
      subst h2
      rw [get_pixel_set_pixel d _ _ _ _ _ hlen]
      rw [if_pos ⟨rfl, rfl, hbx, hby⟩]
    · rw [if_neg hdone] at h
      refine ih _ _ _ _ _ ?_ ?_ ?_ h
      · split_ifs with hg
        · rw [set_pixel_length, set_pixel_fb]; exact hlen
        · exact hlen
      · split_ifs with hg
        · rw [set_pixel_fb]; exact hbx
        · exact hbx
      · split_ifs with hg
        · rw [set_pixel_fb]; exact hby
        · exact hby

/-- Claim C8: the degenerate call `draw_line p p c` sets exactly the
single pixel `p` (every in-bounds pixel other than `p` keeps its old
value), and in general `draw_line` plots both endpoints inclusively. -/
theorem C8_line_degenerate_and_endpoints (d : Display)
    (hlen : d.back_buffer.length = d.fb.width * d.fb.height) :
    (∀ (x0 y0 : Int) (color qx qy : Nat), qx < d.fb.width → qy < d.fb.height →
      (draw_line d x0 y0 x0 y0 color).get_pixel qx qy =
        if (qx : Int) = x0 ∧ (qy : Int) = y0 then color else d.get_pixel qx qy) ∧
    (∀ (x0 y0 x1 y1 : Int) (color : Nat), 0 ≤ x0 → 0 ≤ y0 →
        x0.toNat < d.fb.width → y0.toNat < d.fb.height → 0 ≤ x1 → 0 ≤ y1 →
        x1.toNat < d.fb.width → y1.toNat < d.fb.height →
      (draw_line d x0 y0 x1 y1 color).get_pixel x0.toNat y0.toNat = color ∧
      (draw_line d x0 y0 x1 y1 color).get_pixel x1.toNat y1.toNat = color) := by
  constructor
  · intro x0 y0 color qx qy hqx hqy
    have h1 : drawLineLoopResult d x0 y0 x0 y0 color =
        some (if 0 ≤ x0 ∧ 0 ≤ y0 then d.set_pixel x0.toNat y0.toNat color else d) := by
      rw [drawLineLoopResult, drawLineGo_succ, if_pos ⟨rfl, rfl⟩]
    rw [draw_line, h1, Option.getD_some]
    by_cases hg : 0 ≤ x0 ∧ 0 ≤ y0
    · rw [if_pos hg, get_pixel_set_pixel d _ _ _ _ _ hlen]
      by_cases hc : (qx : Int) = x0 ∧ (qy : Int) = y0
      · rw [if_pos hc, if_pos ⟨by omega, by omega, by omega, by omega⟩]
      · rw [if_neg hc, if_neg (fun h => hc ⟨by omega, by omega⟩)]
    · rw [if_neg hg, if_neg (fun hc => hg ⟨by omega, by omega⟩)]
  · intro x0 y0 x1 y1 color hx0 hy0 hbx0 hby0 hx1 hy1 hbx1 hby1
    obtain ⟨dfin, hfin⟩ := drawLineLoopResult_some d x0 y0 x1 y1 color
    have hdl : draw_line d x0 y0 x1 y1 color = dfin := by
      rw [draw_line, hfin, Option.getD_some]
    have hfin2 := hfin
    rw [drawLineLoopResult] at hfin2
    constructor
    · -- the first iteration plots (x0, y0); later writes keep the color
      rw [hdl]
      rw [drawLineLoopResult, drawLineGo_succ] at hfin
      have hstart : (d.set_pixel x0.toNat y0.toNat color).get_pixel
          x0.toNat y0.toNat = color := by
        rw [get_pixel_set_pixel d _ _ _ _ _ hlen, if_pos ⟨rfl, rfl, hbx0, hby0⟩]
      have hlen' : (d.set_pixel x0.toNat y0.toNat color).back_buffer.length =
          (d.set_pixel x0.toNat y0.toNat color).fb.width *
          (d.set_pixel x0.toNat y0.toNat color).fb.height := by
        rw [set_pixel_length, set_pixel_fb]; exact hlen
      have hplotEq : (if 0 ≤ x0 ∧ 0 ≤ y0 then
          d.set_pixel x0.toNat y0.toNat color else d) =
          d.set_pixel x0.toNat y0.toNat color := if_pos ⟨hx0, hy0⟩
      by_cases hdone : x0 = x1 ∧ y0 = y1
      · rw [if_pos hdone, hplotEq] at hfin
        have h2 := Option.some.inj hfin
        subst h2
        exact hstart
      · rw [if_neg hdone, hplotEq] at hfin
        exact drawLineGo_preserve _ _ _ _ _ _ _ _ _ _ _ _ _ _ _ hlen' hfin hstart
    · rw [hdl]
      exact drawLineGo_last _ _ _ _ _ _ _ hx1 hy1 _ _ _ _ _ _ hlen hbx1 hby1 hfin2

/-- Witness for C8: a degenerate line at `(1,1)` paints only `(1,1)`
on the 4×4 canvas, and a line `(0,0)-(3,2)` paints both endpoints. -/
theorem C8_line_witness :
    (draw_line dtest 1 1 1 1 9).get_pixel 1 1 = 9 ∧
    (draw_line dtest 1 1 1 1 9).get_pixel 3 3 = 0 ∧
    (draw_line dtest 0 0 3 2 9).get_pixel 0 0 = 9 ∧
    (draw_line dtest 0 0 3 2 9).get_pixel 3 2 = 9 := by
  have h := C8_line_degenerate_and_endpoints dtest (by decide)
  refine ⟨?_, ?_, ?_, ?_⟩
  · rw [h.1 1 1 9 1 1 (by decide) (by decide)]
    norm_num
  · rw [h.1 1 1 9 3 3 (by decide) (by decide)]
    norm_num
    decide
  · exact (h.2 0 0 3 2 9 (by decide) (by decide) (by decide) (by decide)
      (by decide) (by decide) (by decide) (by decide)).1
  · exact (h.2 0 0 3 2 9 (by decide) (by decide) (by decide) (by decide)
      (by decide) (by decide) (by decide) (by decide)).2

/- ### draw_circle (midpoint algorithm) -/

/-- The eight octant-symmetric points plotted per iteration of
`draw_circle`, in source order. -/
def circlePlotPoints (cx cy x y : Int) : List (Int × Int) :=
  [(cx + x, cy + y), (cx + y, cy + x), (cx - y, cy + x), (cx - x, cy + y),
   (cx - x, cy - y), (cx - y, cy - x), (cx + y, cy - x), (cx + x, cy - y)]

/-- Plots the eight points, each under its own non-negativity guard,
exactly as the eight guarded `set_pixel` calls of the source. -/
def drawCirclePlots (d : Display) (cx cy x y : Int) (color : Nat) : Display :=
  (circlePlotPoints cx cy x y).foldl
    (fun d p => if 0 ≤ p.1 ∧ 0 ≤ p.2 then d.set_pixel p.1.toNat p.2.toNat color else d)
    d

/-- Embeds the `while x >= y` loop of `draw_circle`.  The update of
the source — `y += 1; err += 1 + 2*y; if 2*(err - x) + 1 > 0 { x -= 1;
err += 1 - 2*x; }` — appears with the intermediate error value
`err + 1 + 2*(y+1)` written out. -/
def drawCircleLoop (cx cy : Int) (color : Nat) (x y err : Int) (d : Display) :
    Display :=
  if h : y ≤ x then
    drawCircleLoop cx cy color
      (if 0 < 2 * (err + 1 + 2 * (y + 1) - x) + 1 then x - 1 else x)
      (y + 1)
      (if 0 < 2 * (err + 1 + 2 * (y + 1) - x) + 1 then
        err + 1 + 2 * (y + 1) + 1 - 2 * (x - 1)
      else err + 1 + 2 * (y + 1))
      (drawCirclePlots d cx cy x y color)
  else d
termination_by (x + 1 - y).toNat
decreasing_by
  split <;> omega

/-- Embeds `draw_circle`: starts at `x = radius, y = 0, err = 0`. -/
def draw_circle (d : Display) (cx cy radius : Int) (color : Nat) : Display :=
  drawCircleLoop cx cy color radius 0 0 d

/- ### draw_rounded_rect -/

/-- Write list of `draw_rounded_rect`: central band, top/bottom bands,
then the four quarter-disk corners with their bounds guards.  The
source iterates the corner scan over `0..=radius` as `isize`; since
all scanned values are non-negative the scan is taken over `Nat`. -/
def roundedRectWrites (x y width height radius : Nat) : List (Nat × Nat) :=
  ((List.range' radius (height - radius - radius)).flatMap fun dy =>
    (List.range width).map fun dx => (x + dx, y + dy))
  ++
  ((List.range radius).flatMap fun dy =>
    (List.range' radius (width - radius - radius)).flatMap fun dx =>
      [(x + dx, y + dy), (x + dx, y + height - 1 - dy)])
  ++
  ((List.range (radius + 1)).flatMap fun cy =>
    (List.range (radius + 1)).flatMap fun cx =>
      if cx * cx + cy * cy ≤ radius * radius then
        (x + radius - cx, y + radius - cy) ::
        ((if width > radius then [(x + width - radius - 1 + cx, y + radius - cy)] else [])
          ++ (if height > radius then [(x + radius - cx, y + height - radius - 1 + cy)] else [])
          ++ (if width > radius ∧ height > radius then
              [(x + width - radius - 1 + cx, y + height - radius - 1 + cy)] else []))
      else [])

/-- Embeds `draw_rounded_rect`. -/
def draw_rounded_rect (d : Display) (x y width height radius : Nat) (color : Nat) :
    Display :=
  writeAll d (roundedRectWrites x y width height radius) color

/- ### Gradients -/

/-- The per-step interpolated color shared by the two gradient
functions: fixed-point blend `(c1*(256 - t) + c2*t) / 256` with
`t = pos*256/len` per channel, repacked.  All quantities are
non-negative, so `Int` division agrees with the source's truncating
`isize` division. -/
def gradientColor (ca cb : Nat) (pos len : Nat) : Nat :=
  let r1 : Int := (((ca >>> 16) &&& 0xFF : Nat) : Int)
  let g1 : Int := (((ca >>> 8) &&& 0xFF : Nat) : Int)
  let b1 : Int := ((ca &&& 0xFF : Nat) : Int)
  let r2 : Int := (((cb >>> 16) &&& 0xFF : Nat) : Int)
  let g2 : Int := (((cb >>> 8) &&& 0xFF : Nat) : Int)
  let b2 : Int := ((cb &&& 0xFF : Nat) : Int)
  let t : Int := (pos : Int) * 256 / (len : Int)
  let r := ((r1 * (256 - t) + r2 * t) / 256).toNat
  let g := ((g1 * (256 - t) + g2 * t) / 256).toNat
  let b := ((b1 * (256 - t) + b2 * t) / 256).toNat
  (r <<< 16) ||| (g <<< 8) ||| b

/-- Embeds `draw_gradient_vertical`. -/
def draw_gradient_vertical (d : Display) (x y width height : Nat)
    (color_top color_bottom : Nat) : Display :=
  (List.range height).foldl
    (fun d dy =>
      (List.range width).foldl
        (fun d dx => d.set_pixel (x + dx) (y + dy)
          (gradientColor color_top color_bottom dy height)) d)
    d

/-- Embeds `draw_gradient_horizontal`. -/
def draw_gradient_horizontal (d : Display) (x y width height : Nat)
    (color_left color_right : Nat) : Display :=
  (List.range width).foldl
    (fun d dx =>
      (List.range height).foldl
        (fun d dy => d.set_pixel (x + dx) (y + dy)
          (gradientColor color_left color_right dx width)) d)
    d

/- ### draw_triangle -/

/-- Embeds `draw_triangle`: three wireframe edges in source order. -/
def draw_triangle (d : Display) (x0 y0 x1 y1 x2 y2 : Int) (color : Nat) : Display :=
  draw_line (draw_line (draw_line d x0 y0 x1 y1 color) x1 y1 x2 y2 color)
    x2 y2 x0 y0 color

/- ### draw_bitmap -/

/-- Embeds `draw_bitmap`: 1-bit-per-pixel row-major MSB-first source;
a pixel is plotted when its byte exists and its bit is set. -/
def draw_bitmap (d : Display) (x y width height : Nat) (bitmap : List Nat)
    (color : Nat) : Display :=
  writeAll d
    ((List.range height).flatMap fun dy =>
      (List.range width).flatMap fun dx =>
        if (dy * width + dx) / 8 < bitmap.length ∧
            (bitmap.getD ((dy * width + dx) / 8) 0 >>> (7 - (dy * width + dx) % 8)) &&& 1 = 1
        then [(x + dx, y + dy)] else [])
    color

/- ### draw_shadow -/

/-- One pixel of the shadow box.  `none` marks the `usize` division by
zero the source reaches in `(blur - dist) * 128 / blur` when
`blur = 0` (a panic in Rust); the `% 256` renders the `as u8` cast. -/
def shadowPixel (d : Display) (x y width height offset blur dx dy : Nat) :
    Option Display :=
  let shadow_x := x + offset + dx
  let shadow_y := y + offset + dy
  let dist_x := if dx < blur then blur - dx
    else if dx ≥ width + blur then dx - width - blur + 1 else 0
  let dist_y := if dy < blur then blur - dy
    else if dy ≥ height + blur then dy - height - blur + 1 else 0
  let dist := max dist_x dist_y
  if dist ≤ blur then
    if blur = 0 then none
    else
      some (if shadow_x < d.fb.width ∧ shadow_y < d.fb.height then
        d.set_pixel shadow_x shadow_y
          (blend_colors (d.get_pixel shadow_x shadow_y) 0x000000
            (((blur - dist) * 128 / blur) % 256))
      else d)
  else some d

/-- One row of the shadow box scan. -/
def shadowRow (d : Display) (x y width height offset blur dy : Nat) :
    Option Display :=
  (List.range (width + blur * 2)).foldl
    (fun od dx => od.bind fun d => shadowPixel d x y width height offset blur dx dy)
    (some d)

/-- Embeds `draw_shadow`. -/
def draw_shadow (d : Display) (x y width height offset blur : Nat) :
    Option Display :=
  (List.range (height + blur * 2)).foldl
    (fun od dy => od.bind fun d => shadowRow d x y width height offset blur dy)
    (some d)

/- ### Length preservation lemmas -/

theorem foldl_set_like_length {α : Type} (l : List α) (f : Display → α → Display)
    (hf : ∀ d a, (f d a).back_buffer.length = d.back_buffer.length) :
    ∀ d : Display, (l.foldl f d).back_buffer.length = d.back_buffer.length := by
  induction l with
  | nil => intro d; rfl
  | cons a l ih => intro d; rw [List.foldl_cons, ih, hf]

theorem draw_line_length (d : Display) (x0 y0 x1 y1 : Int) (c : Nat) :
    (draw_line d x0 y0 x1 y1 c).back_buffer.length = d.back_buffer.length := by
  rw [draw_line]
  rcases h : drawLineLoopResult d x0 y0 x1 y1 c with _ | d'
  · rfl
  · rw [Option.getD_some]
    rw [drawLineLoopResult] at h
    exact (drawLineGo_fb_len _ _ _ _ _ _ _ _ _ _ _ _ _ h).2

theorem drawCirclePlots_length (d : Display) (cx cy x y : Int) (color : Nat) :
    (drawCirclePlots d cx cy x y color).back_buffer.length = d.back_buffer.length := by
  refine foldl_set_like_length _ _ ?_ d
  intro d p
  split_ifs with h
  · exact set_pixel_length ..
  · rfl

theorem drawCircleLoop_length (cx cy : Int) (color : Nat) :
    ∀ (x y err : Int) (d : Display),
      (drawCircleLoop cx cy color x y err d).back_buffer.length =
        d.back_buffer.length := by
  intro x y err d
  induction x, y, err, d using drawCircleLoop.induct cx cy color with
  | case1 x y err d h ih =>
    simp only [dite_eq_ite] at ih
    rw [drawCircleLoop, dif_pos h, ih, drawCirclePlots_length]
  | case2 x y err d h =>
    rw [drawCircleLoop, dif_neg h]

theorem shadowPixel_length (d : Display) (x y width height offset blur dx dy : Nat)
    (d' : Display) (h : shadowPixel d x y width height offset blur dx dy = some d') :
    d'.back_buffer.length = d.back_buffer.length := by
  simp only [shadowPixel] at h
  split_ifs at h
  all_goals simp at h
  all_goals subst h
  all_goals first | exact set_pixel_length .. | rfl

theorem foldl_bind_none {α : Type} (l : List α) (g : α → Display → Option Display) :
    l.foldl (fun od a => od.bind fun d => g a d) none = none := by
  induction l with
  | nil => rfl
  | cons a l ih => rw [List.foldl_cons]; exact ih

theorem foldl_bind_cons_none {α : Type} (l : List α) (g : α → Display → Option Display)
    (a : α) (d : Display) (h : g a d = none) :
    (a :: l).foldl (fun od a => od.bind fun d => g a d) (some d) = none := by
  rw [List.foldl_cons]
  have h0 : (some d).bind (fun d => g a d) = none := h
  rw [h0]
  exact foldl_bind_none l g

theorem foldl_bind_some {α : Type} (l : List α) (g : α → Display → Option Display)
    (hg : ∀ a d, ∃ d', g a d = some d') :
    ∀ d : Display, ∃ d',
      l.foldl (fun od a => od.bind fun d => g a d) (some d) = some d' := by
  induction l with
  | nil => intro d; exact ⟨d, rfl⟩
  | cons a l ih =>
    intro d
    obtain ⟨d1, hd1⟩ := hg a d
    have h0 : (some d).bind (fun d => g a d) = g a d := rfl
    rw [List.foldl_cons, h0, hd1]
    exact ih d1

theorem foldl_bind_length {α : Type} (l : List α) (g : α → Display → Option Display)
    (hg : ∀ a d d', g a d = some d' →
      d'.back_buffer.length = d.back_buffer.length) :
    ∀ (od : Option Display) (d0 d' : Display),
      (∀ dd, od = some dd → dd.back_buffer.length = d0.back_buffer.length) →
      l.foldl (fun od a => od.bind fun d => g a d) od = some d' →
      d'.back_buffer.length = d0.back_buffer.length := by
  induction l with
  | nil =>
    intro od d0 d' hod h
    rw [List.foldl_nil] at h
    exact hod d' h
  | cons a l ih =>
    intro od d0 d' hod h
    rw [List.foldl_cons] at h
    refine ih _ _ _ ?_ h
    intro dd hdd
    rcases od with _ | dm
    · simp at hdd
    · have hdd' : g a dm = some dd := hdd
      exact (hg a dm dd hdd').trans (hod dm rfl)

theorem shadowRow_length (x y width height offset blur dy : Nat) :
    ∀ (d0 d1 : Display), shadowRow d0 x y width height offset blur dy = some d1 →
      d1.back_buffer.length = d0.back_buffer.length := by
  intro d0 d1 h
  rw [shadowRow] at h
  refine foldl_bind_length _ _ ?_ (some d0) d0 d1 ?_ h
  · intro dx dd dd' hsp
    exact shadowPixel_length dd x y width height offset blur dx dy dd' hsp
  · intro dd hdd
    rw [← Option.some.inj hdd]

theorem draw_shadow_length (d : Display) (x y width height offset blur : Nat) :
    ((draw_shadow d x y width height offset blur).getD d).back_buffer.length =
      d.back_buffer.length := by
  rcases h : draw_shadow d x y width height offset blur with _ | d'
  · rfl
  · rw [Option.getD_some]
    rw [draw_shadow] at h
    refine foldl_bind_length _ _ ?_ (some d) d d' ?_ h
    · intro dy dd dd' hr
      exact shadowRow_length x y width height offset blur dy dd dd' hr
    · intro dd hdd
      rw [← Option.some.inj hdd]

/-- Claim C4: the back buffer's length equals `width * height` after
`init` and is unchanged by every operation: `set_pixel`, `clear`,
`swap_buffers`, and every drawing primitive (`get_pixel` is a pure
read in the model and touches no state).  For `draw_shadow`, whose
embedding returns `Option Display` (`none` marking the `blur = 0`
division-by-zero panic), the resulting display — when there is one —
has the same length. -/
theorem C4_back_buffer_length_invariant :
    (∀ fb : FramebufferInfo,
      (Display.init fb).back_buffer.length = fb.width * fb.height) ∧
    (∀ (d : Display) (x y c : Nat),
      (d.set_pixel x y c).back_buffer.length = d.back_buffer.length) ∧
    (∀ (d : Display) (c : Nat),
      (d.clear c).back_buffer.length = d.back_buffer.length) ∧
    (∀ d : Display,
      d.swap_buffers.back_buffer.length = d.back_buffer.length) ∧
    (∀ (d : Display) (x y c : Nat),
      (draw_pixel d x y c).back_buffer.length = d.back_buffer.length) ∧
    (∀ (d : Display) (c : Nat),
      (clear_screen d c).back_buffer.length = d.back_buffer.length) ∧
    (∀ (d : Display) (x0 y0 x1 y1 : Int) (c : Nat),
      (draw_line d x0 y0 x1 y1 c).back_buffer.length = d.back_buffer.length) ∧
    (∀ (d : Display) (x y w h c : Nat),
      (draw_rect d x y w h c).back_buffer.length = d.back_buffer.length) ∧
    (∀ (d : Display) (x y w h c t : Nat),
      (draw_rect_outline d x y w h c t).back_buffer.length = d.back_buffer.length) ∧
    (∀ (d : Display) (cx cy r : Int) (c : Nat),
      (draw_circle d cx cy r c).back_buffer.length = d.back_buffer.length) ∧
    (∀ (d : Display) (cx cy r : Int) (c : Nat),
      (fill_circle d cx cy r c).back_buffer.length = d.back_buffer.length) ∧
    (∀ (d : Display) (x y w h r c : Nat),
      (draw_rounded_rect d x y w h r c).back_buffer.length = d.back_buffer.length) ∧
    (∀ (d : Display) (x y w h ct cb : Nat),
      (draw_gradient_vertical d x y w h ct cb).back_buffer.length =
        d.back_buffer.length) ∧
    (∀ (d : Display) (x y w h cl cr : Nat),
      (draw_gradient_horizontal d x y w h cl cr).back_buffer.length =
        d.back_buffer.length) ∧
    (∀ (d : Display) (x0 y0 x1 y1 x2 y2 : Int) (c : Nat),
      (draw_triangle d x0 y0 x1 y1 x2 y2 c).back_buffer.length =
        d.back_buffer.length) ∧
    (∀ (d : Display) (x y w h : Nat) (bm : List Nat) (c : Nat),
      (draw_bitmap d x y w h bm c).back_buffer.length = d.back_buffer.length) ∧
    (∀ (d : Display) (x y w h off blur : Nat),
      ((draw_shadow d x y w h off blur).getD d).back_buffer.length =
        d.back_buffer.length) := by
  refine ⟨?_, ?_, ?_, ?_, ?_, ?_, ?_, ?_, ?_, ?_, ?_, ?_, ?_, ?_, ?_, ?_, ?_⟩
  · intro fb; simp [Display.init]
  · intro d x y c; exact set_pixel_length ..
  · intro d c; simp [Display.clear]
  · intro d; rfl
  · intro d x y c; exact set_pixel_length ..
  · intro d c; simp [clear_screen, Display.clear]
  · intro d x0 y0 x1 y1 c; exact draw_line_length ..
  · intro d x y w h c; exact writeAll_length ..
  · intro d x y w h c t; exact writeAll_length ..
  · intro d cx cy r c; exact drawCircleLoop_length ..
  · intro d cx cy r c; exact writeAll_length ..
  · intro d x y w h r c; exact writeAll_length ..
  · intro d x y w h ct cb
    refine foldl_set_like_length _ _ ?_ d
    intro d dy
    refine foldl_set_like_length _ _ ?_ d
    intro d dx
    exact set_pixel_length ..
  · intro d x y w h cl cr
    refine foldl_set_like_length _ _ ?_ d
    intro d dx
    refine foldl_set_like_length _ _ ?_ d
    intro d dy
    exact set_pixel_length ..
  · intro d x0 y0 x1 y1 x2 y2 c
    rw [draw_triangle, draw_line_length, draw_line_length, draw_line_length]
  · intro d x y w h bm c; exact writeAll_length ..
  · intro d x y w h off blur; exact draw_shadow_length ..

/- ### C10 -/

theorem shadowPixel_some (d : Display) (x y width height offset blur dx dy : Nat)
    (hb : 1 ≤ blur) :
    ∃ d', shadowPixel d x y width height offset blur dx dy = some d' := by
  simp only [shadowPixel]
  split_ifs
  all_goals
    first
      | exact absurd ‹blur = 0› (by omega)
      | exact ⟨_, rfl⟩

/-- Claim C10: `draw_shadow`'s per-pixel alpha division
`(blur - dist) * 128 / blur` is unguarded.  For `blur ≥ 1` the
divisor is nonzero and every pixel computation succeeds; for
`blur = 0` with `width ≥ 1` and `height ≥ 1` the very first scanned
pixel reaches the division by zero (modelled as `none`). -/
theorem C10_shadow_division (d : Display) (x y width height offset blur : Nat) :
    (1 ≤ blur → ∃ d', draw_shadow d x y width height offset blur = some d') ∧
    (1 ≤ width → 1 ≤ height →
      draw_shadow d x y width height offset 0 = none) := by
  constructor
  · intro hb
    rw [draw_shadow]
    refine foldl_bind_some _ _ ?_ d
    intro dy d0
    rw [shadowRow]
    exact foldl_bind_some _ _
      (fun dx d1 => shadowPixel_some d1 x y width height offset blur dx dy hb) d0
  · intro hw hh
    rw [draw_shadow]
    have h1 : height + 0 * 2 = (height - 1) + 1 := by omega
    rw [h1, List.range_succ_eq_map]
    refine foldl_bind_cons_none _ _ 0 d ?_
    rw [shadowRow]
    have h2 : width + 0 * 2 = (width - 1) + 1 := by omega
    rw [h2, List.range_succ_eq_map]
    refine foldl_bind_cons_none _ _ 0 d ?_
    simp only [shadowPixel]
    split_ifs <;> first | rfl | omega

/-- Witness for C10 on the 4×4 canvas: `blur = 1` succeeds, `blur = 0`
on a 1×1 box hits the division by zero. -/
theorem C10_shadow_division_witness :
    (∃ d', draw_shadow dtest 0 0 1 1 1 1 = some d') ∧
    draw_shadow dtest 0 0 1 1 1 0 = none := by
  constructor
  · exact (C10_shadow_division dtest 0 0 1 1 1 1).1 (by decide)
  · exact (C10_shadow_division dtest 0 0 1 1 1 0).2 (by decide) (by decide)

end Spec2Proof
